import Mathlib

/-!
Shallow embedding of the Merkle-tree core of `src/s05_zk_lab.rs`.

The Rust code builds a bottom-up binary hash tree over an ordered list of
string blocks.  Its hash primitive `mock_hash` feeds the string's UTF-8
bytes to `std::collections::hash_map::DefaultHasher` (SipHash-1-3 with both
keys zero; hashing a `str` writes the bytes followed by a trailing `0xff`
byte) and renders the resulting 64-bit value with `format!("{:x}", _)`,
i.e. lowercase hexadecimal with no zero padding.

Machine integers are modelled as `Nat` reduced modulo `2^64` where the Rust
code relies on `u64` wrapping.  The partiality of `build_recursive`
(it diverges on an empty level, and contains `unwrap`/`expect` calls that
panic when their `Option` is empty) is modelled with a fuel parameter and
an `Option` result: `none` stands for divergence or panic, and theorems
below show it is never produced on the inputs the program uses.
-/

/-- Reduction modulo `2^64`: the value carried by a Rust `u64`. -/
def mask64 (n : Nat) : Nat := n % 18446744073709551616

/-- `u64::rotate_left` for an operand already below `2^64`. -/
def rotl64 (x r : Nat) : Nat := mask64 (x <<< r) ||| (x >>> (64 - r))

/-- State of the SipHash mixer: four 64-bit lanes. -/
structure SipState where
  v0 : Nat
  v1 : Nat
  v2 : Nat
  v3 : Nat

/-- One SIPROUND, as in Rust `core::hash::sip` (all arithmetic wraps). -/
def sipRound (s : SipState) : SipState :=
  let v0 := mask64 (s.v0 + s.v1)
  let v1 := rotl64 s.v1 13
  let v1 := v1 ^^^ v0
  let v0 := rotl64 v0 32
  let v2 := mask64 (s.v2 + s.v3)
  let v3 := rotl64 s.v3 16
  let v3 := v3 ^^^ v2
  let v0 := mask64 (v0 + v3)
  let v3 := rotl64 v3 21
  let v3 := v3 ^^^ v0
  let v2 := mask64 (v2 + v1)
  let v1 := rotl64 v1 17
  let v1 := v1 ^^^ v2
  let v2 := rotl64 v2 32
  ⟨v0, v1, v2, v3⟩

/-- Absorb one 64-bit message word (SipHash-1-3: one round per word). -/
def sipCompress (s : SipState) (m : Nat) : SipState :=
  let s := { s with v3 := s.v3 ^^^ m }
  let s := sipRound s
  { s with v0 := s.v0 ^^^ m }

/-- Little-endian 64-bit word from a list of bytes (first byte lowest). -/
def leWord : List Nat → Nat
  | [] => 0
  | b :: rest => b + 256 * leWord rest

/-- Absorb all complete 8-byte blocks; return the state and the tail bytes. -/
def sipBlocks (s : SipState) : List Nat → SipState × List Nat
  | b0 :: b1 :: b2 :: b3 :: b4 :: b5 :: b6 :: b7 :: rest =>
      sipBlocks (sipCompress s (leWord [b0, b1, b2, b3, b4, b5, b6, b7])) rest
  | rest => (s, rest)

/-- SipHash-1-3 of a byte stream with both keys zero: the algorithm of
`DefaultHasher::new()` (Rust `std::collections::hash_map`), whose `finish`
folds in the final block `(len % 256) << 56 | tail`, xors `0xff` into `v2`
and applies three finalization rounds. -/
def sipHash13 (msg : List Nat) : Nat :=
  let s : SipState :=
    ⟨0x736f6d6570736575, 0x646f72616e646f6d, 0x6c7967656e657261, 0x7465646279746573⟩
  let st := sipBlocks s msg
  let b := ((msg.length % 256) <<< 56) ||| leWord st.2
  let s := sipCompress st.1 b
  let s := { s with v2 := s.v2 ^^^ 0xff }
  let s := sipRound (sipRound (sipRound s))
  mask64 (s.v0 ^^^ s.v1 ^^^ s.v2 ^^^ s.v3)

/-- UTF-8 encoding of one Unicode scalar value, as `str::as_bytes` sees it. -/
def utf8Bytes (c : Nat) : List Nat :=
  if c < 0x80 then [c]
  else if c < 0x800 then
    [0xC0 ||| (c >>> 6), 0x80 ||| (c &&& 0x3F)]
  else if c < 0x10000 then
    [0xE0 ||| (c >>> 12), 0x80 ||| ((c >>> 6) &&& 0x3F), 0x80 ||| (c &&& 0x3F)]
  else
    [0xF0 ||| (c >>> 18), 0x80 ||| ((c >>> 12) &&& 0x3F),
     0x80 ||| ((c >>> 6) &&& 0x3F), 0x80 ||| (c &&& 0x3F)]

/-- The UTF-8 byte sequence of a string (Rust `str::as_bytes`). -/
def strBytes (s : String) : List Nat :=
  (s.data.map fun c => utf8Bytes c.toNat).flatten

/-- Hashing a `&str` with a Rust `Hasher` writes its bytes and then a
single `0xff` byte; `DefaultHasher` then yields the SipHash-1-3 value. -/
def defaultHashStr (s : String) : Nat := sipHash13 (strBytes s ++ [0xff])

/-- Lowercase hexadecimal digit for a value below 16, as Rust `LowerHex`. -/
def hexDigit (n : Nat) : Char :=
  if n < 10 then Char.ofNat (48 + n) else Char.ofNat (87 + n)

/-- Accumulate the hex digits of `n` (most significant first) onto `acc`.
The first argument is fuel making the recursion structural; any fuel at
least the number of digits of `n` (in particular `n` itself) is enough. -/
def natToHexAux : Nat → Nat → List Char → List Char
  | 0, _, acc => acc
  | _, 0, acc => acc
  | fuel + 1, n + 1, acc =>
    natToHexAux fuel ((n + 1) / 16) (hexDigit ((n + 1) % 16) :: acc)

/-- Rust `format!("{:x}", n)`: lowercase hex, no leading zeros, `"0"` for 0. -/
def natToHex (n : Nat) : String :=
  if n = 0 then "0" else String.mk (natToHexAux n n [])

/-- Rust `mock_hash` (src/s05_zk_lab.rs lines 6-12): feed the string to a
fresh `DefaultHasher` and render `finish()` with `format!("{:x}", _)`. -/
def mock_hash (input : String) : String := natToHex (defaultHashStr input)

/-- Rust `Node` (lines 17-23): a hash plus optional boxed children; a leaf
has no children, an internal node has both. -/
inductive Node where
  | mk (hash : String) (left : Option Node) (right : Option Node)

/-- The `hash` field of a node. -/
def Node.hash : Node → String
  | .mk h _ _ => h

/-- The `left` child of a node. -/
def Node.left : Node → Option Node
  | .mk _ l _ => l

/-- The `right` child of a node. -/
def Node.right : Node → Option Node
  | .mk _ _ r => r

/-- Rust `Node::new_leaf` (lines 27-33). -/
def Node.new_leaf (data : String) : Node :=
  .mk (mock_hash data) none none

/-- Rust `Node::new_internal` (lines 36-54): the parent hash is
`mock_hash(left.hash ++ right.hash)` and both children are owned. -/
def Node.new_internal (left right : Node) : Node :=
  .mk (mock_hash (left.hash ++ right.hash)) (some left) (some right)

/-- The pairing loop of `build_recursive` (lines 169-182): consume the level
two nodes at a time, building one internal parent per pair, in order.  The
Rust loop panics (`expect`) when a lone node remains, modelled by `none`. -/
def pairLevel : List Node → Option (List Node)
  | [] => some []
  | [_] => none
  | l :: r :: rest =>
    match pairLevel rest with
    | none => none
    | some next => some (Node.new_internal l r :: next)

/-- The parity test `nodes.len() % 2 != 0` of line 128, written as a
structural recursion so that it computes by kernel reduction; the lemma
`isOddLen_iff` below identifies it with `n % 2 ≠ 0`. -/
def isOddLen : Nat → Bool
  | 0 => false
  | 1 => true
  | n + 2 => isOddLen n

/-- The parity step of `build_recursive` (lines 128-131): an odd level gets
a clone of its last node (`nodes.last().unwrap().clone()`) appended, an even
level is left alone.  `none` models the `unwrap` panic on an empty level
(which the guarded call sites never produce). -/
def padLevel (nodes : List Node) : Option (List Node) :=
  if isOddLen nodes.length then
    match nodes.getLast? with
    | none => none
    | some last => some (nodes ++ [last])
  else
    some nodes

/-- Rust `MerkleTree::build_recursive` (lines 117-201) with explicit fuel.
A singleton level returns its node (`pop().unwrap()`); otherwise the level
is padded to even parity, paired into the next level, and the function
recurses.  `none` models divergence (fuel exhausted, as happens in Rust on
an empty level, where the code would recurse forever) or a panic inside
the loop. -/
def build_recursive : Nat → List Node → Option Node
  | 0, _ => none
  | fuel + 1, nodes =>
    if nodes.length = 1 then
      nodes.getLast?
    else
      (padLevel nodes).bind fun padded =>
        (pairLevel padded).bind fun next =>
          build_recursive fuel next

/-- Rust `MerkleTree` (lines 60-63): optional root node plus the retained
original blocks. -/
structure MerkleTree where
  root : Option Node
  leaves : List String

/-- Rust `MerkleTree::new` (lines 66-112): empty input gives an empty tree;
otherwise every block becomes a leaf and the level list is reduced.  The
fuel `nodes.length` is shown below to be sufficient, so the `root` field is
`some _` exactly as in the Rust code. -/
def MerkleTree.new (data : List String) : MerkleTree :=
  if data.isEmpty then
    ⟨none, []⟩
  else
    let nodes := data.map Node.new_leaf
    ⟨build_recursive nodes.length nodes, data⟩

/-- Rust `MerkleTree::root_hash` (lines 203-211): the root's hash, or the
empty string when there is no root. -/
def MerkleTree.root_hash (t : MerkleTree) : String :=
  match t.root with
  | some node => node.hash
  | none => ""

/-- Modelled from the spec: `leaf_count() -> integer`, the number of
original (pre-padding) input blocks.  The Rust source exposes the retained
blocks only as the public field `leaves`; the accessor named by the spec is
its length. -/
def MerkleTree.leaf_count (t : MerkleTree) : Nat := t.leaves.length

/-- A node whose hash field is an output of `mock_hash` (true of every node
the builder creates). -/
def HashedNode (nd : Node) : Prop := ∃ s, nd.hash = mock_hash s

/-! ### Helper lemmas about the hexadecimal rendering -/

theorem natToHexAux_length_le :
    ∀ (fuel k n : Nat) (acc : List Char), n < 16 ^ k →
      (natToHexAux fuel n acc).length ≤ k + acc.length := by
  intro fuel
  induction fuel with
  | zero =>
    intro k n acc _
    simp only [natToHexAux]
    omega
  | succ fuel ih =>
    intro k n acc h
    match n with
    | 0 => simp only [natToHexAux]; omega
    | m + 1 =>
      match k, h with
      | 0, h => omega
      | j + 1, h =>
        have hdiv : (m + 1) / 16 < 16 ^ j := by
          have h16 : (0 : Nat) < 16 := by decide
          rw [Nat.div_lt_iff_lt_mul h16]
          calc m + 1 < 16 ^ (j + 1) := h
            _ = 16 ^ j * 16 := by rw [Nat.pow_succ]
        have := ih j ((m + 1) / 16) (hexDigit ((m + 1) % 16) :: acc) hdiv
        rw [natToHexAux]
        simp at this ⊢
        omega

theorem natToHexAux_length_ge :
    ∀ (fuel n : Nat) (acc : List Char), acc.length ≤ (natToHexAux fuel n acc).length := by
  intro fuel
  induction fuel with
  | zero =>
    intro n acc
    simp [natToHexAux]
  | succ fuel ih =>
    intro n acc
    match n with
    | 0 => simp [natToHexAux]
    | m + 1 =>
      rw [natToHexAux]
      have := ih ((m + 1) / 16) (hexDigit ((m + 1) % 16) :: acc)
      simp at this
      omega

theorem natToHex_length_pos (n : Nat) : 1 ≤ (natToHex n).length := by
  unfold natToHex
  by_cases h : n = 0
  · simp [h]
    decide
  · simp only [h, if_false]
    match n, h with
    | m + 1, _ =>
      show 1 ≤ (natToHexAux (m + 1) (m + 1) []).length
      rw [natToHexAux]
      have := natToHexAux_length_ge m ((m + 1) / 16) (hexDigit ((m + 1) % 16) :: [])
      simp at this
      omega

theorem natToHex_ne_empty (n : Nat) : natToHex n ≠ "" := by
  intro h
  have := natToHex_length_pos n
  rw [h] at this
  simp at this

theorem natToHex_length_le (n : Nat) (h : n < 16 ^ 16) : (natToHex n).length ≤ 16 := by
  unfold natToHex
  by_cases h0 : n = 0
  · simp [h0]
    decide
  · simp only [h0, if_false]
    have := natToHexAux_length_le n 16 n [] h
    simpa using this

theorem mock_hash_ne_empty (s : String) : mock_hash s ≠ "" :=
  natToHex_ne_empty _

theorem mask64_lt (n : Nat) : mask64 n < 16 ^ 16 := by
  have h : (16 : Nat) ^ 16 = 18446744073709551616 := by norm_num
  rw [h]
  exact Nat.mod_lt _ (by norm_num)

theorem defaultHashStr_lt (s : String) : defaultHashStr s < 16 ^ 16 := by
  exact mask64_lt _

theorem mock_hash_length_le (s : String) : (mock_hash s).length ≤ 16 :=
  natToHex_length_le _ (defaultHashStr_lt s)

theorem mock_hash_length_pos (s : String) : 1 ≤ (mock_hash s).length :=
  natToHex_length_pos _

/-! ### Helper lemmas about the level reduction -/

theorem pairLevel_even :
    ∀ ns : List Node, ns.length % 2 = 0 →
      ∃ l, pairLevel ns = some l ∧ l.length = ns.length / 2 := by
  intro ns
  induction ns using pairLevel.induct with
  | case1 =>
    intro _
    exact ⟨[], rfl, rfl⟩
  | case2 x =>
    intro h
    simp at h
  | case3 l r rest hnone ih =>
    intro h
    have hrest : rest.length % 2 = 0 := by
      simp at h
      omega
    obtain ⟨next, hnext, _⟩ := ih hrest
    rw [hnone] at hnext
    cases hnext
  | case4 l r rest next hsome ih =>
    intro h
    have hrest : rest.length % 2 = 0 := by
      simp at h
      omega
    obtain ⟨next2, hnext2, hlen⟩ := ih hrest
    rw [hsome, Option.some.injEq] at hnext2
    rw [← hnext2] at hlen
    refine ⟨Node.new_internal l r :: next, ?_, ?_⟩
    · simp [pairLevel, hsome]
    · simp [hlen]
      omega

theorem pairLevel_mem_internal :
    ∀ (ns l : List Node), pairLevel ns = some l →
      ∀ m ∈ l, ∃ x y, m = Node.new_internal x y := by
  intro ns
  induction ns using pairLevel.induct with
  | case1 =>
    intro l h m hm
    simp only [pairLevel, Option.some.injEq] at h
    subst h
    simp at hm
  | case2 x =>
    intro l h
    simp [pairLevel] at h
  | case3 a b rest hnone ih =>
    intro l h
    simp [pairLevel, hnone] at h
  | case4 a b rest next hsome ih =>
    intro l h m hm
    simp only [pairLevel, hsome, Option.some.injEq] at h
    subst h
    rcases List.mem_cons.1 hm with h1 | h2
    · exact ⟨a, b, h1⟩
    · exact ih next hsome m h2

theorem isOddLen_iff : ∀ n : Nat, isOddLen n = true ↔ n % 2 ≠ 0 := by
  intro n
  induction n using isOddLen.induct with
  | case1 => simp [isOddLen]
  | case2 => simp [isOddLen]
  | case3 n ih =>
    simp only [isOddLen]
    rw [ih]
    omega

theorem padLevel_some :
    ∀ nodes : List Node, nodes ≠ [] →
      ∃ p, padLevel nodes = some p ∧ p.length % 2 = 0 ∧
        nodes.length ≤ p.length ∧ p.length ≤ nodes.length + 1 := by
  intro nodes hne
  by_cases hodd : nodes.length % 2 = 0
  · have hb : isOddLen nodes.length = false := by
      rw [← Bool.not_eq_true, isOddLen_iff]
      omega
    exact ⟨nodes, by simp [padLevel, hb], hodd, Nat.le_refl _, Nat.le_succ _⟩
  · have hb : isOddLen nodes.length = true := (isOddLen_iff _).2 hodd
    obtain ⟨last, hlast⟩ := Option.isSome_iff_exists.1 (List.getLast?_isSome.2 hne)
    refine ⟨nodes ++ [last], ?_, ?_, ?_, ?_⟩
    · simp [padLevel, hb, hlast]
    · simp
      omega
    · simp
    · simp

theorem build_recursive_some :
    ∀ (fuel : Nat) (nodes : List Node), nodes ≠ [] → nodes.length ≤ fuel →
      ∃ r, build_recursive fuel nodes = some r := by
  intro fuel
  induction fuel with
  | zero =>
    intro nodes hne hlen
    exact absurd (List.eq_nil_of_length_eq_zero (Nat.le_zero.1 hlen)) hne
  | succ fuel ih =>
    intro nodes hne hlen
    by_cases h1 : nodes.length = 1
    · obtain ⟨a, rfl⟩ := List.length_eq_one.1 h1
      exact ⟨a, by simp [build_recursive]⟩
    · have hlen0 : nodes.length ≠ 0 := fun h => hne (List.eq_nil_of_length_eq_zero h)
      have hlen2 : 2 ≤ nodes.length := by omega
      obtain ⟨p, hpad, hpe, hple, hpge⟩ := padLevel_some nodes hne
      obtain ⟨next, hnext, hnlen⟩ := pairLevel_even p hpe
      have hnne : next ≠ [] := by
        refine List.ne_nil_of_length_pos ?_
        omega
      have hnle : next.length ≤ fuel := by omega
      obtain ⟨r, hr⟩ := ih next hnne hnle
      refine ⟨r, ?_⟩
      simp only [build_recursive, if_neg h1, hpad, Option.some_bind, hnext, hr]

theorem build_recursive_hashed :
    ∀ (fuel : Nat) (nodes : List Node) (r : Node),
      build_recursive fuel nodes = some r → (∀ n ∈ nodes, HashedNode n) →
        HashedNode r := by
  intro fuel
  induction fuel with
  | zero =>
    intro nodes r h
    simp [build_recursive] at h
  | succ fuel ih =>
    intro nodes r h hmem
    by_cases h1 : nodes.length = 1
    · simp only [build_recursive, if_pos h1] at h
      exact hmem r (List.mem_of_getLast?_eq_some h)
    · rcases hpad : padLevel nodes with _ | p
      · simp [build_recursive, if_neg h1, hpad] at h
      · simp only [build_recursive, if_neg h1, hpad, Option.some_bind] at h
        rcases hnext : pairLevel p with _ | next
        · rw [hnext, Option.none_bind] at h
          cases h
        · rw [hnext, Option.some_bind] at h
          refine ih next r h ?_
          intro m hm
          obtain ⟨x, y, hxy⟩ := pairLevel_mem_internal p next hnext m hm
          exact ⟨x.hash ++ y.hash, by rw [hxy]; rfl⟩

/-! ### Claim theorems -/

/-- C1: for every three blocks `a`, `b`, `c`, the root digest of the tree
built from `[a, b, c]` is `hash(hash(hash a ++ hash b) ++ hash(hash c ++
hash c))`: the last leaf is duplicated at the leaf level before the final
pairing. -/
theorem C1_three_blocks_root (a b c : String) :
    (MerkleTree.new [a, b, c]).root_hash =
      mock_hash (mock_hash (mock_hash a ++ mock_hash b) ++
        mock_hash (mock_hash c ++ mock_hash c)) := rfl

/-- C2: for every single block `b`, the root digest of the tree built from
`[b]` is `hash b` exactly, and the root is the single leaf node itself with
no internal-node wrapping. -/
theorem C2_single_block_root (b : String) :
    (MerkleTree.new [b]).root_hash = mock_hash b ∧
      (MerkleTree.new [b]).root = some (Node.new_leaf b) :=
  ⟨rfl, rfl⟩

/-- C3: for every four blocks, the root digest is `hash(hash(hash a ++
hash b) ++ hash(hash c ++ hash d))`, and the built tree is exactly the
four-leaf complete tree: no node is duplicated anywhere in the reduction. -/
theorem C3_four_blocks_root (a b c d : String) :
    (MerkleTree.new [a, b, c, d]).root_hash =
      mock_hash (mock_hash (mock_hash a ++ mock_hash b) ++
        mock_hash (mock_hash c ++ mock_hash d)) ∧
      (MerkleTree.new [a, b, c, d]).root =
        some (Node.new_internal
          (Node.new_internal (Node.new_leaf a) (Node.new_leaf b))
          (Node.new_internal (Node.new_leaf c) (Node.new_leaf d))) :=
  ⟨rfl, rfl⟩

/-- C4: the built tree retains the input blocks in order as its leaves,
`leaf_count` is the number of original input blocks, and the leaf list is
empty exactly when the root is absent. -/
theorem C4_tree_invariants (data : List String) :
    (MerkleTree.new data).leaves = data ∧
      (MerkleTree.new data).leaf_count = data.length ∧
      ((MerkleTree.new data).leaves = [] ↔ (MerkleTree.new data).root = none) := by
  rcases data with _ | ⟨a, rest⟩
  · exact ⟨rfl, rfl, by simp [MerkleTree.new, MerkleTree.leaf_count]⟩
  · obtain ⟨r, hr⟩ := build_recursive_some (((a :: rest).map Node.new_leaf).length)
      ((a :: rest).map Node.new_leaf) (by simp) (Nat.le_refl _)
    have hroot : (MerkleTree.new (a :: rest)).root = some r := hr
    refine ⟨rfl, rfl, ?_, ?_⟩
    · intro h
      exact (List.cons_ne_nil a rest h).elim
    · intro h
      rw [hroot] at h
      cases h

/-- C5: building twice from the same block sequence yields the same root
digest; the model of the build is a pure function of the blocks and their
order (the Rust hasher is created with fixed keys, so it carries no hidden
per-run state). -/
theorem C5_determinism (S T : List String) (h : S = T) :
    (MerkleTree.new S).root_hash = (MerkleTree.new T).root_hash := by
  rw [h]

theorem C5_determinism_witness :
    (MerkleTree.new ["Tx1"]).root_hash = (MerkleTree.new ["Tx1"]).root_hash :=
  C5_determinism ["Tx1"] ["Tx1"] rfl

/-- C6: `build_recursive` is total on the levels the program reaches: an
amount of fuel equal to the level length always suffices to produce a root
for a non-empty level, because after parity padding an even level of length
`m` pairs into a next level of exactly `m / 2` nodes. -/
theorem C6_build_terminates :
    (∀ (fuel : Nat) (nodes : List Node), nodes ≠ [] → nodes.length ≤ fuel →
      ∃ r, build_recursive fuel nodes = some r) ∧
    (∀ ns : List Node, ns.length % 2 = 0 →
      ∃ l, pairLevel ns = some l ∧ l.length = ns.length / 2) :=
  ⟨build_recursive_some, pairLevel_even⟩

theorem C6_build_terminates_witness :
    (∃ r, build_recursive 1 [Node.new_leaf "a"] = some r) ∧
      ∃ l, pairLevel ([] : List Node) = some l ∧
        l.length = ([] : List Node).length / 2 :=
  ⟨C6_build_terminates.1 1 [Node.new_leaf "a"] (List.cons_ne_nil _ _)
      (Nat.le_refl _),
    C6_build_terminates.2 [] rfl⟩

/-- C7: on every non-empty input the build reaches no panic: all the
`unwrap` and `expect` calls inside `build_recursive` (modelled as the
`none` outcomes of `padLevel`, `pairLevel` and the singleton base case)
succeed, so the constructed tree always carries a root node. -/
theorem C7_no_panic (data : List String) (h : data ≠ []) :
    (MerkleTree.new data).root ≠ none := by
  rcases data with _ | ⟨a, rest⟩
  · exact absurd rfl h
  · obtain ⟨r, hr⟩ := build_recursive_some (((a :: rest).map Node.new_leaf).length)
      ((a :: rest).map Node.new_leaf) (by simp) (Nat.le_refl _)
    have hroot : (MerkleTree.new (a :: rest)).root = some r := hr
    rw [hroot]
    simp

theorem C7_no_panic_witness : (MerkleTree.new ["a"]).root ≠ none :=
  C7_no_panic ["a"] (List.cons_ne_nil _ _)

/-- C8 counterexample: at the empty sequence `S = []` the claimed
inequality fails, since `S ++ S = S` and both builds return the empty
tree whose root digest is the sentinel `""`. -/
theorem C8_self_concat_cex :
    (MerkleTree.new (([] : List String) ++ ([] : List String))).root_hash =
      (MerkleTree.new ([] : List String)).root_hash := rfl

set_option maxRecDepth 40000 in
/-- C8 amended: for the specified non-empty scenario input
`S = ["Tx1", "Tx2", "Tx3"]`, building from `S ++ S` yields a root digest
different from the root digest of the tree built from `S` alone. -/
theorem C8_self_concat_differs :
    (MerkleTree.new (["Tx1", "Tx2", "Tx3"] ++ ["Tx1", "Tx2", "Tx3"])).root_hash ≠
      (MerkleTree.new ["Tx1", "Tx2", "Tx3"]).root_hash := by
  decide

/-- C9: the root digest is the empty string exactly when the input was
empty: every root of a non-empty build carries a `mock_hash` output, and a
lowercase-hex rendering of a 64-bit value is never the empty string. -/
theorem C9_empty_sentinel (S : List String) :
    (MerkleTree.new S).root_hash = "" ↔ S = [] := by
  rcases S with _ | ⟨a, rest⟩
  · simp [MerkleTree.new, MerkleTree.root_hash]
  · obtain ⟨r, hr⟩ := build_recursive_some (((a :: rest).map Node.new_leaf).length)
      ((a :: rest).map Node.new_leaf) (by simp) (Nat.le_refl _)
    have hroot : (MerkleTree.new (a :: rest)).root = some r := hr
    have hhashed : HashedNode r := by
      refine build_recursive_hashed _ _ _ hr ?_
      intro n hn
      obtain ⟨s, _, rfl⟩ := List.mem_map.1 hn
      exact ⟨s, rfl⟩
    obtain ⟨s, hs⟩ := hhashed
    constructor
    · intro h
      simp only [MerkleTree.root_hash, hroot] at h
      rw [hs] at h
      exact absurd h (mock_hash_ne_empty s)
    · intro h
      exact (List.cons_ne_nil a rest h).elim

/-- C10 counterexample: the digests of `"a"` and `"l"` have different
lengths (16 and 15 hex digits), so `mock_hash` is not fixed-length:
`format!("{:x}", _)` emits no leading zeros. -/
theorem C10_fixed_length_cex :
    (mock_hash "a").length ≠ (mock_hash "l").length := by
  decide

/-- C10 amended: every digest is a nonempty lowercase-hex rendering of a
64-bit value, hence between 1 and 16 characters long; the length is not
fixed because the formatting suppresses leading zeros. -/
theorem C10_digest_length_bounds (x : String) :
    1 ≤ (mock_hash x).length ∧ (mock_hash x).length ≤ 16 :=
  ⟨mock_hash_length_pos x, mock_hash_length_le x⟩

